import Mathlib

/-!
Verification development for the SpokenSense speech-delivery engine
(src/tts/coqui_tts.py).  The Python module is shallowly embedded: strings
become lists of characters, floating-point arithmetic becomes exact
rational arithmetic, the background sync loop becomes a function over an
explicit trace of observations, and the mutable engine object becomes a
record with pure transition functions.
-/

namespace SpokenSense

/-! ## Characters and whitespace

Python whitespace as used by textwrap (its internal whitespace string is
the six characters tab, newline, vertical tab, form feed, carriage
return, space) and by str.split on the ASCII range. -/

def TAB : Char := Char.ofNat 9

def LF : Char := Char.ofNat 10

def VT : Char := Char.ofNat 11

def FF : Char := Char.ofNat 12

def CR : Char := Char.ofNat 13

def SP : Char := Char.ofNat 32

def isWS (c : Char) : Bool :=
  c = SP || c = TAB || c = LF || c = CR || c = VT || c = FF

/-! ## Python str.split()

str.split() with no arguments returns the maximal runs of
non-whitespace characters, in order.  pySplitAux scans the string one
character at a time, carrying the current word reversed in acc. -/

def pySplitAux : List Char → List Char → List (List Char)
  | [], acc => if acc = [] then [] else [acc.reverse]
  | c :: s, acc =>
    if isWS c then
      if acc = [] then pySplitAux s [] else acc.reverse :: pySplitAux s []
    else
      pySplitAux s (c :: acc)

def pySplit (s : List Char) : List (List Char) := pySplitAux s []

/-- Python str.strip(): drop leading and trailing whitespace. -/
def pyStrip (s : List Char) : List Char :=
  ((s.dropWhile isWS).reverse.dropWhile isWS).reverse

/-- Join a list of strings with single spaces (the separator used when
chunk texts are concatenated back together). -/
def joinSp : List (List Char) → List Char
  | [] => []
  | [c] => c
  | c :: c2 :: rest => c ++ SP :: joinSp (c2 :: rest)

/-! ## textwrap: munging and splitting

speak() calls textwrap.wrap(text, width=250, break_long_words=False,
break_on_hyphens=False) with all remaining options at their defaults
(expand_tabs=True, tabsize=8, replace_whitespace=True,
drop_whitespace=True, empty indents, max_lines=None).  wrap first
munges whitespace: str.expandtabs() followed by translating each of the
six whitespace characters to a space; then it splits the text into the
maximal runs of whitespace / non-whitespace (the simple word separator
regex used when break_on_hyphens is false). -/

/-- str.expandtabs(8): a tab becomes spaces up to the next multiple of 8
of the running column; newline and carriage return reset the column. -/
def expandTabsAux : Nat → List Char → List Char
  | _, [] => []
  | col, c :: rest =>
    if c = TAB then
      List.replicate (8 - col % 8) SP ++ expandTabsAux (col + (8 - col % 8)) rest
    else if c = LF ∨ c = CR then c :: expandTabsAux 0 rest
    else c :: expandTabsAux (col + 1) rest

def expandTabs (s : List Char) : List Char := expandTabsAux 0 s

/-- textwrap _munge_whitespace: expandtabs then replace each whitespace
character by a space. -/
def mungeWhitespace (s : List Char) : List Char :=
  (expandTabs s).map (fun c => if isWS c then SP else c)

/-- textwrap _split with the simple separator: the maximal runs of
whitespace and of non-whitespace characters, in order (re.split with a
captured whitespace group, empty pieces removed).  The accumulator holds
the current run reversed. -/
def splitRunsAux : List Char → List Char → List (List Char)
  | acc, [] => if acc = [] then [] else [acc.reverse]
  | acc, c :: rest =>
    match acc with
    | [] => splitRunsAux [c] rest
    | a :: _ =>
      if isWS a = isWS c then splitRunsAux (c :: acc) rest
      else acc.reverse :: splitRunsAux [c] rest

def splitRuns (s : List Char) : List (List Char) := splitRunsAux [] s

/-- A chunk is all-whitespace (chunk.strip() == '' in the Python). -/
def isWSChunk (ch : List Char) : Bool := ch.all isWS

def wordRuns (cs : List (List Char)) : List (List Char) :=
  cs.filter (fun ch => !isWSChunk ch)

/-- Invariant satisfied by the run list: every run is nonempty and
homogeneous, and adjacent runs have different whitespace classes. -/
def AltRuns (cs : List (List Char)) : Prop :=
  (∀ ch ∈ cs, ch ≠ [] ∧ ∃ b, ∀ c ∈ ch, isWS c = b) ∧
  List.Chain' (fun a b => isWSChunk a ≠ isWSChunk b) cs

/-! ## textwrap: assembling lines (_wrap_chunks)

Parameters fixed by the call site in speak(): width = 250
(max_chunk_size // 2), drop_whitespace = True, break_long_words = False,
initial_indent = subsequent_indent = '' and max_lines = None. -/

/-- Drop a leading whitespace chunk, but only once a line has been
produced (the CPython guard also requires a nonempty lines list). -/
def dropLeadingWS (haveLines : Bool) (chunks : List (List Char)) : List (List Char) :=
  match chunks with
  | ch :: rest => if haveLines && isWSChunk ch then rest else chunks
  | [] => []

/-- Inner while loop: pop chunks onto the current line while they fit. -/
def takeFits (width : Nat) : Nat → List (List Char) → List (List Char) × List (List Char)
  | _, [] => ([], [])
  | curLen, ch :: rest =>
    if curLen + ch.length ≤ width then
      let p := takeFits width (curLen + ch.length) rest
      (ch :: p.1, p.2)
    else ([], ch :: rest)

/-- A chunk longer than the width that did not fit: with
break_long_words = False it is placed on the line only if the line is
still empty. -/
def handleLong (p : List (List Char) × List (List Char)) :
    List (List Char) × List (List Char) :=
  match p.2 with
  | ch :: rrest =>
    if 250 < ch.length then
      if p.1 = [] then ([ch], rrest) else p
    else p
  | [] => p

/-- Drop a trailing whitespace chunk from the line. -/
def dropTrailingWS (line : List (List Char)) : List (List Char) :=
  match line.getLast? with
  | some last => if isWSChunk last then line.dropLast else line
  | none => line

/-- One iteration of the outer while loop of _wrap_chunks: the produced
line, if any, and the chunks that remain. -/
def wrapStep (haveLines : Bool) (chunks : List (List Char)) :
    Option (List Char) × List (List Char) :=
  let chunks1 := dropLeadingWS haveLines chunks
  let q := handleLong (takeFits 250 0 chunks1)
  let curLine := dropTrailingWS q.1
  (if curLine = [] then none else some curLine.flatten, q.2)

/-- The outer while loop, with fuel (each iteration consumes at least one
chunk, so chunks.length + 1 fuel always suffices). -/
def wrapChunksAux : Nat → Bool → List (List Char) → List (List Char)
  | 0, _, _ => []
  | fuel + 1, haveLines, chunks =>
    match chunks with
    | [] => []
    | _ :: _ =>
      match wrapStep haveLines chunks with
      | (some l, rest) => l :: wrapChunksAux fuel true rest
      | (none, rest) => wrapChunksAux fuel haveLines rest

/-- textwrap.wrap(text, width=250, break_long_words=False,
break_on_hyphens=False). -/
def pyWrap (text : List Char) : List (List Char) :=
  let runs := splitRuns (mungeWhitespace text)
  wrapChunksAux (runs.length + 1) false runs

/-- The greedy recombination loop of speak(): accumulate wrapped lines
(each followed by a single space) while the 500-character budget allows,
flushing the stripped accumulator as a chunk when it does not. -/
def recombineAux : List (List Char) → List Char → List (List Char)
  | [], current => if pyStrip current = [] then [] else [pyStrip current]
  | line :: rest, current =>
    if current.length + line.length + 1 ≤ 500 then
      recombineAux rest (current ++ line ++ [SP])
    else
      (if pyStrip current = [] then [] else [pyStrip current]) ++
        recombineAux rest (line ++ [SP])

/-- The chunk list built by speak() for a text longer than 500 chars. -/
def buildChunks (text : List Char) : List (List Char) :=
  recombineAux (pyWrap text) []

/-- The chunking step of speak(): texts of at most 500 characters are a
single chunk (current_text is the raw text, text_chunks is None);
longer texts go through wrap and recombination. -/
def chunksOf (text : List Char) : List (List Char) :=
  if 500 < text.length then buildChunks text else [text]

/-! ### One wrap step: words preserved, chunk count decreases -/

def lineWords : Option (List Char) → List (List Char)
  | none => []
  | some l => pySplit l

/-! ## The timing estimator (_estimate_word_timings)

src/tts/coqui_tts.py lines 363-406, with Python floats replaced by exact
rationals.  The audio length is a sample count; the sample rate is the
hard-coded 22050. -/

/-- The loop body: word_timings.append(current_time);
current_time += len(word) * time_per_char + 0.05. -/
def timingsList : List (List Char) → ℚ → ℚ → List ℚ
  | [], _, _ => []
  | w :: ws, tpc, t => t :: timingsList ws tpc (t + (w.length : ℚ) * tpc + 1 / 20)

/-- The value of current_time after the loop. -/
def timingsEnd : List (List Char) → ℚ → ℚ → ℚ
  | [], _, t => t
  | w :: ws, tpc, t => timingsEnd ws tpc (t + (w.length : ℚ) * tpc + 1 / 20)

def estimate_word_timings (text : List Char) (audio_length_samples : Nat) : List ℚ :=
  let words := pySplit text
  if words = [] then []
  else
    let audio_duration_seconds : ℚ := (audio_length_samples : ℚ) / 22050
    let total_chars : Nat := (words.map List.length).sum
    if total_chars = 0 then List.replicate words.length 0
    else
      let time_per_char : ℚ := audio_duration_seconds / (total_chars : ℚ)
      let word_timings := timingsList words time_per_char 0
      let current_time := timingsEnd words time_per_char 0
      if word_timings ≠ [] ∧ current_time > audio_duration_seconds then
        if current_time > 0 then
          word_timings.map (fun t => t * (audio_duration_seconds / current_time))
        else word_timings
      else word_timings

/-- The timing model exactly as claim C1 words it: offsets are the
cumulative sums of (len(previous word) * time_per_char + 0.05), and the
rescale is triggered by, and its factor computed from, the LAST RETURNED
OFFSET (rather than the cumulative total after the last word). -/
def estimateClaimC1 (text : List Char) (audio_length_samples : Nat) : List ℚ :=
  let words := pySplit text
  if words = [] then []
  else
    let dur : ℚ := (audio_length_samples : ℚ) / 22050
    let total_chars : Nat := (words.map List.length).sum
    if total_chars = 0 then List.replicate words.length 0
    else
      let tpc : ℚ := dur / (total_chars : ℚ)
      let raw := (List.range words.length).map
        (fun i => ((words.take i).map (fun w => (w.length : ℚ) * tpc + 1 / 20)).sum)
      match raw.getLast? with
      | some last => if last > dur then raw.map (fun t => t * (dur / last)) else raw
      | none => raw

/-- The amended timing model: identical cumulative-sum offsets, but the
rescale is triggered by, and its factor computed from, the cumulative
total after the last word (current_time in the source). -/
def estimateAmendedC1 (text : List Char) (audio_length_samples : Nat) : List ℚ :=
  let words := pySplit text
  if words = [] then []
  else
    let dur : ℚ := (audio_length_samples : ℚ) / 22050
    let total_chars : Nat := (words.map List.length).sum
    if total_chars = 0 then List.replicate words.length 0
    else
      let tpc : ℚ := dur / (total_chars : ℚ)
      let raw := (List.range words.length).map
        (fun i => ((words.take i).map (fun w => (w.length : ℚ) * tpc + 1 / 20)).sum)
      let total := (words.map (fun w => (w.length : ℚ) * tpc + 1 / 20)).sum
      if total > dur then raw.map (fun t => t * (dur / total)) else raw

/-- A representative 1200-character input for the multi-chunk scenario:
299 three-letter words and one final four-letter word, space separated. -/
def c4text : List Char :=
  joinSp (List.replicate 299 ['a', 'b', 'c'] ++ [['a', 'b', 'c', 'd']])

/-! ## The word-sync loop (_play_with_word_sync, lines 409-465)

The loop polls wall-clock time against the next unfired word offset.  It
is embedded as a function over an explicit trace of observations, one
per loop iteration: the elapsed time sampled at the top of the body and
the stop/pause flags read by the while condition of the same iteration.
The while condition checks the word index first, so running out of
timings is detected before the next observation is consumed. -/

structure Obs where
  elapsed : ℚ
  paused : Bool
  stopped : Bool

inductive SyncExit where
  /-- All word timings fired; the loop ended normally (then sd.wait()). -/
  | exhausted
  /-- Loop left because the stopped or paused flag was set (then sd.stop()). -/
  | flagged
  /-- Safety break: elapsed exceeded audio duration plus the 1 s grace. -/
  | timedOut
  /-- The observation trace ended (modelling artifact, not a code path). -/
  | ranOut
  /-- Empty audio buffer: _play_with_word_sync returned without playing. -/
  | notPlayed
  deriving DecidableEq

structure SyncResult where
  emitted : List Nat
  exit : SyncExit
  deriving DecidableEq

def syncLoop (timings : List ℚ) (dur : ℚ) : Nat → List Obs → SyncResult
  | idx, obs =>
    if timings.length ≤ idx then ⟨[], SyncExit.exhausted⟩
    else
      match obs with
      | [] => ⟨[], SyncExit.ranOut⟩
      | o :: rest =>
        if o.stopped || o.paused then ⟨[], SyncExit.flagged⟩
        else
          let hit := timings[idx]?.getD 0 ≤ o.elapsed
          let emitted1 : List Nat := if hit then [idx] else []
          let idx1 := if hit then idx + 1 else idx
          if dur + 1 < o.elapsed then ⟨emitted1, SyncExit.timedOut⟩
          else
            let r := syncLoop timings dur idx1 rest
            ⟨emitted1 ++ r.emitted, r.exit⟩

/-! ## The queue-drain loop of _playback_worker (lines 280-300)

Each queued chunk is processed by one _play_with_word_sync pass.  While
paused the worker only sleeps; on resume it continues with the NEXT
queue item — nothing in the source replays the paused chunk or seeks
into it.  sd.play is always handed the full sample buffer of the chunk
(there is no offset argument anywhere in the module), so a device action
play i means: chunk i from sample 0. -/

structure ChunkJob where
  timings : List ℚ
  dur : ℚ
  samples : Nat

inductive DevAct where
  | play (chunk : Nat)
  | stopDev
  | waitDev
  deriving DecidableEq

/-- One _play_with_word_sync call for queue item i: skip empty audio,
otherwise start playback of the full buffer, run the sync loop, then
sd.wait() on a normal exit or sd.stop() when the loop left because of the
stop/pause flags. -/
def playOne (i : Nat) (job : ChunkJob) (obs : List Obs) : SyncResult × List DevAct :=
  if job.samples = 0 then (⟨[], SyncExit.notPlayed⟩, [])
  else
    let r := syncLoop job.timings job.dur 0 obs
    (r, DevAct.play i ::
      (if r.exit = SyncExit.flagged then [DevAct.stopDev] else [DevAct.waitDev]))

def workerRunFrom : Nat → List (ChunkJob × List Obs) → List (SyncResult × List DevAct)
  | _, [] => []
  | i, jo :: rest => playOne i jo.1 jo.2 :: workerRunFrom (i + 1) rest

def workerRun (jobs : List (ChunkJob × List Obs)) : List (SyncResult × List DevAct) :=
  workerRunFrom 0 jobs

/-- The concrete two-chunk run used to refute claim C6 as frozen. -/
def c6job0 : ChunkJob := ⟨[0, 1/2], 1, 22050⟩

def c6obs0 : List Obs := [⟨0, false, false⟩, ⟨1/10, true, false⟩]

def c6job1 : ChunkJob := ⟨[0], 1, 22050⟩

def c6obs1 : List Obs := [⟨0, false, false⟩]

def c6jobs : List (ChunkJob × List Obs) := [(c6job0, c6obs0), (c6job1, c6obs1)]

/-! ## The engine object and its control API

The mutable CoquiTTS object becomes a record; speak / pause / resume /
stop / cleanup become pure transition functions, returning also the list
of threads the call starts.  Word events are emitted only by the
background sync loop modelled above, never by the control API itself. -/

inductive ThreadKind where
  | preprocessThread
  | playbackThread
  deriving DecidableEq

structure EngineState where
  tts : Option Unit
  is_playing : Bool
  is_paused : Bool
  stopped : Bool
  /-- queue items are (samples length, processed text) pairs. -/
  audio_queue : List (Nat × List Char)
  current_text : List Char
  word_boxes : Option (List (ℚ × ℚ × ℚ × ℚ))
  text_chunks : Option (List (List Char))
  current_chunk_index : Int
  deriving DecidableEq

/-- The constructor (lines 55-88); tts is some () when model loading succeeded,
none when _initialize_tts caught an exception (line 119). -/
def initState (ttsOK : Bool) : EngineState where
  tts := if ttsOK then some () else none
  is_playing := false
  is_paused := false
  stopped := false
  audio_queue := []
  current_text := []
  word_boxes := none
  text_chunks := none
  current_chunk_index := -1

/-- stop (lines 242-268): everything is guarded by
`if self.is_playing or self.is_paused`. -/
def stop (s : EngineState) : EngineState :=
  if s.is_playing ∨ s.is_paused then
    { s with is_playing := false, is_paused := false, stopped := true,
             audio_queue := [] }
  else s

/-- pause (lines 230-234). -/
def enginePause (s : EngineState) : EngineState :=
  if s.is_playing ∧ ¬s.is_paused then { s with is_paused := true } else s

/-- resume (lines 236-240). -/
def engineResume (s : EngineState) : EngineState :=
  if s.is_playing ∧ s.is_paused then { s with is_paused := false } else s

/-- cleanup (lines 531-537): an alias for stop. -/
def cleanup (s : EngineState) : EngineState := stop s

/-- speak (lines 134-199): the synchronous body executed on the caller
thread, returning the new state and the threads started. -/
def speak (s : EngineState) (text : List Char)
    (word_boxes : Option (List (ℚ × ℚ × ℚ × ℚ))) :
    EngineState × List ThreadKind :=
  if s.tts = none then (s, [])
  else if text = [] ∨ pyStrip text = [] then (s, [])
  else
    let s1 := stop s
    let s2 := { s1 with stopped := false }
    let s3 :=
      if 500 < text.length then
        let chunks := buildChunks text
        { s2 with text_chunks := some chunks
                  current_chunk_index := 0
                  current_text := chunks.headD [] }
      else
        { s2 with current_text := text, text_chunks := none,
                  current_chunk_index := -1 }
    let s4 := { s3 with word_boxes := word_boxes, is_playing := true,
                        is_paused := false }
    let threads :=
      (match s4.text_chunks with
       | some chunks =>
         if 1 < chunks.length then [ThreadKind.preprocessThread] else []
       | none => []) ++ [ThreadKind.playbackThread]
    (s4, threads)

/-- States reachable through the control API together with the two
background-worker effects visible in the source: the producer thread
enqueueing a chunk (guarded only by the stopped flag, line 209) and the
playback worker's finally block clearing the playing/paused flags when
the worker exits for any reason, including an exception from the audio
device (lines 318-325). -/
inductive Reach : EngineState → Prop
  | ofInit (ttsOK : Bool) : Reach (initState ttsOK)
  | ofSpeak (s : EngineState) (text : List Char)
      (boxes : Option (List (ℚ × ℚ × ℚ × ℚ))) :
      Reach s → Reach (speak s text boxes).1
  | ofPause (s : EngineState) : Reach s → Reach (enginePause s)
  | ofResume (s : EngineState) : Reach s → Reach (engineResume s)
  | ofStop (s : EngineState) : Reach s → Reach (stop s)
  | ofCleanup (s : EngineState) : Reach s → Reach (cleanup s)
  | ofEnqueue (s : EngineState) (item : Nat × List Char) :
      Reach s → s.stopped = false →
      Reach { s with audio_queue := s.audio_queue ++ [item] }
  | ofWorkerExit (s : EngineState) : Reach s → s.is_playing = true →
      Reach { s with is_playing := false, is_paused := false }

def helloText : List Char := ['h', 'e', 'l', 'l', 'o']

/-- The engine state after speak("hello") on a fresh engine. -/
def s5a : EngineState := (speak (initState true) helloText none).1

/-- A reachable state in which the playback worker has exited (for
example after a device failure) while the producer had already enqueued
a chunk: not playing, not paused, not stopped, non-empty queue. -/
def s5bad : EngineState :=
  { s5a with audio_queue := s5a.audio_queue ++ [(22050, ['h', 'i'])],
             is_playing := false, is_paused := false }

/-- A failed-init engine that is mid-playback with a queued chunk. -/
def s10 : EngineState :=
  { initState false with is_playing := true, audio_queue := [(3, ['h', 'i'])] }

/-! ## Theorems -/


/-! ### Basic lemmas about pySplit -/

theorem pySplitAux_ws_cons (c : Char) (s acc : List Char) (h : isWS c = true) :
    pySplitAux (c :: s) acc =
      if acc = [] then pySplitAux s [] else acc.reverse :: pySplitAux s [] := by
  simp [pySplitAux, h]

theorem pySplitAux_nonws_cons (c : Char) (s acc : List Char) (h : isWS c = false) :
    pySplitAux (c :: s) acc = pySplitAux s (c :: acc) := by
  simp [pySplitAux, h]

/-- A leading all-whitespace block is ignored when the accumulator is empty. -/
theorem pySplitAux_ws_append (u : List Char) (hu : ∀ c ∈ u, isWS c = true) :
    ∀ x : List Char, pySplitAux (u ++ x) [] = pySplitAux x [] := by
  induction u with
  | nil => intro x; rfl
  | cons c u ih =>
    intro x
    have hc : isWS c = true := hu c (List.mem_cons_self c u)
    have hu' : ∀ d ∈ u, isWS d = true := fun d hd => hu d (List.mem_cons_of_mem c hd)
    simp only [List.cons_append, pySplitAux_ws_cons c _ [] hc, if_pos rfl]
    exact ih hu' x

/-- Scanning an all-whitespace string flushes the accumulator and stops. -/
theorem pySplitAux_all_ws (u : List Char) (hu : ∀ c ∈ u, isWS c = true) :
    ∀ acc : List Char, pySplitAux u acc = if acc = [] then [] else [acc.reverse] := by
  induction u with
  | nil => intro acc; rfl
  | cons c u ih =>
    intro acc
    have hc : isWS c = true := hu c (List.mem_cons_self c u)
    have hu' : ∀ d ∈ u, isWS d = true := fun d hd => hu d (List.mem_cons_of_mem c hd)
    rw [pySplitAux_ws_cons c u acc hc]
    by_cases hacc : acc = []
    · simp [hacc, ih hu' []]
    · simp [hacc, ih hu' []]

/-- Scanning a non-whitespace block pushes all of it onto the accumulator. -/
theorem pySplitAux_word_append (w : List Char) (hw : ∀ c ∈ w, isWS c = false) :
    ∀ x acc, pySplitAux (w ++ x) acc = pySplitAux x (w.reverse ++ acc) := by
  induction w with
  | nil => intro x acc; rfl
  | cons c w ih =>
    intro x acc
    have hc : isWS c = false := hw c (List.mem_cons_self c w)
    have hw' : ∀ d ∈ w, isWS d = false := fun d hd => hw d (List.mem_cons_of_mem c hd)
    rw [List.cons_append, pySplitAux_nonws_cons c _ acc hc, ih hw' x (c :: acc)]
    simp

/-- A trailing all-whitespace block never changes the result. -/
theorem pySplitAux_append_ws (u : List Char) (hu : ∀ c ∈ u, isWS c = true) :
    ∀ (x acc : List Char), pySplitAux (x ++ u) acc = pySplitAux x acc := by
  intro x
  induction x with
  | nil =>
    intro acc
    rw [List.nil_append, pySplitAux_all_ws u hu acc]
    rfl
  | cons c x ih =>
    intro acc
    by_cases hc : isWS c = true
    · rw [List.cons_append, pySplitAux_ws_cons c _ acc hc, pySplitAux_ws_cons c x acc hc,
        ih []]
    · have hc' : isWS c = false := by simpa using hc
      rw [List.cons_append, pySplitAux_nonws_cons c _ acc hc',
        pySplitAux_nonws_cons c x acc hc', ih (c :: acc)]

/-- A single whitespace character cleanly separates the two sides. -/
theorem pySplit_append_ws_cons (c : Char) (hc : isWS c = true) :
    ∀ a b : List Char, pySplit (a ++ c :: b) = pySplit a ++ pySplit b := by
  intro a b
  unfold pySplit
  suffices h : ∀ acc, pySplitAux (a ++ c :: b) acc =
      pySplitAux a acc ++ pySplitAux b [] by
    exact h []
  induction a with
  | nil =>
    intro acc
    rw [List.nil_append, pySplitAux_ws_cons c b acc hc]
    by_cases hacc : acc = [] <;> simp [hacc, pySplitAux]
  | cons d a ih =>
    intro acc
    by_cases hd : isWS d = true
    · rw [List.cons_append, pySplitAux_ws_cons d _ acc hd, pySplitAux_ws_cons d a acc hd,
        ih []]
      by_cases hacc : acc = [] <;> simp [hacc]
    · have hd' : isWS d = false := by simpa using hd
      rw [List.cons_append, pySplitAux_nonws_cons d _ acc hd',
        pySplitAux_nonws_cons d a acc hd', ih (d :: acc)]

theorem pySplit_ws_append (u : List Char) (hu : ∀ c ∈ u, isWS c = true)
    (x : List Char) : pySplit (u ++ x) = pySplit x :=
  pySplitAux_ws_append u hu x

theorem pySplit_append_ws (u : List Char) (hu : ∀ c ∈ u, isWS c = true)
    (x : List Char) : pySplit (x ++ u) = pySplit x :=
  pySplitAux_append_ws u hu x []

/-- A nonempty all-non-whitespace string followed by nothing or by a
whitespace character contributes itself as one word. -/
theorem pySplit_word_append (w x : List Char) (hw : ∀ c ∈ w, isWS c = false)
    (hne : w ≠ []) (hx : x = [] ∨ ∃ c x', x = c :: x' ∧ isWS c = true) :
    pySplit (w ++ x) = w :: pySplit x := by
  unfold pySplit
  rw [pySplitAux_word_append w hw x []]
  rcases hx with hx | ⟨c, x', rfl, hc⟩
  · subst hx
    simp [pySplitAux, hne]
  · rw [pySplitAux_ws_cons c x' _ hc]
    simp [pySplitAux, hne, hc]

theorem pySplit_nil : pySplit [] = [] := rfl

/-- pyStrip never changes the word list. -/
theorem pySplit_pyStrip (s : List Char) : pySplit (pyStrip s) = pySplit s := by
  unfold pyStrip
  have h1 : ∀ c ∈ s.takeWhile isWS, isWS c = true := fun c hc =>
    List.mem_takeWhile_imp hc
  have hs : s = s.takeWhile isWS ++ s.dropWhile isWS :=
    (List.takeWhile_append_dropWhile (p := isWS) (l := s)).symm
  set t := s.dropWhile isWS with ht
  have h2 : ∀ c ∈ t.reverse.takeWhile isWS, isWS c = true := fun c hc =>
    List.mem_takeWhile_imp hc
  have htr : t.reverse = t.reverse.takeWhile isWS ++ t.reverse.dropWhile isWS :=
    (List.takeWhile_append_dropWhile (p := isWS) (l := t.reverse)).symm
  have ht2 : t = (t.reverse.dropWhile isWS).reverse ++ (t.reverse.takeWhile isWS).reverse := by
    have h := congrArg List.reverse htr
    rw [List.reverse_reverse, List.reverse_append] at h
    exact h
  calc pySplit (t.reverse.dropWhile isWS).reverse
      = pySplit ((t.reverse.dropWhile isWS).reverse ++ (t.reverse.takeWhile isWS).reverse) := by
        rw [pySplit_append_ws _ (fun c hc => h2 c (List.mem_reverse.mp hc))]
    _ = pySplit t := by rw [← ht2]
    _ = pySplit (s.takeWhile isWS ++ t) := by rw [pySplit_ws_append _ h1]
    _ = pySplit s := by rw [ht, ← hs]

theorem isWS_SP : isWS SP = true := by decide

theorem isWSChunk_of_homog {b : Bool} {ch : List Char} (h : ch ≠ [])
    (hb : ∀ c ∈ ch, isWS c = b) : isWSChunk ch = b := by
  cases b with
  | false =>
    cases ch with
    | nil => exact absurd rfl h
    | cons c t => simp [isWSChunk, hb c (List.mem_cons_self c t)]
  | true => simp only [isWSChunk, List.all_eq_true]; exact hb

/-! ### Munging preserves the word list -/

theorem pySplitAux_replicate_SP {n : Nat} (hn : 1 ≤ n) (x acc : List Char) :
    pySplitAux (List.replicate n SP ++ x) acc =
      if acc = [] then pySplitAux x [] else acc.reverse :: pySplitAux x [] := by
  cases n with
  | zero => omega
  | succ m =>
    have hws : ∀ c ∈ List.replicate m SP, isWS c = true := by
      intro c hc
      rw [List.eq_of_mem_replicate hc]; exact isWS_SP
    rw [List.replicate_succ, List.cons_append, pySplitAux_ws_cons SP _ acc isWS_SP,
      pySplitAux_ws_append (List.replicate m SP) hws x]

theorem pySplitAux_expandTabsAux (s : List Char) :
    ∀ (col : Nat) (acc : List Char),
      pySplitAux (expandTabsAux col s) acc = pySplitAux s acc := by
  induction s with
  | nil => intro col acc; rfl
  | cons c s ih =>
    intro col acc
    by_cases hT : c = TAB
    · subst hT
      have hn : 1 ≤ 8 - col % 8 := by
        have : col % 8 < 8 := Nat.mod_lt _ (by norm_num)
        omega
      rw [expandTabsAux, if_pos rfl,
        pySplitAux_replicate_SP hn (expandTabsAux (col + (8 - col % 8)) s) acc,
        pySplitAux_ws_cons TAB s acc (by decide), ih _ []]
    · by_cases hNL : c = LF ∨ c = CR
      · have hws : isWS c = true := by
          rcases hNL with h | h <;> simp [h, isWS]
        rw [expandTabsAux, if_neg hT, if_pos hNL, pySplitAux_ws_cons c _ acc hws,
          pySplitAux_ws_cons c s acc hws, ih 0 []]
      · by_cases hws : isWS c = true
        · rw [expandTabsAux, if_neg hT, if_neg hNL, pySplitAux_ws_cons c _ acc hws,
            pySplitAux_ws_cons c s acc hws, ih (col + 1) []]
        · have hws' : isWS c = false := by simpa using hws
          rw [expandTabsAux, if_neg hT, if_neg hNL, pySplitAux_nonws_cons c _ acc hws',
            pySplitAux_nonws_cons c s acc hws', ih (col + 1) (c :: acc)]

theorem pySplitAux_munge_map (s : List Char) :
    ∀ acc, pySplitAux (s.map (fun c => if isWS c then SP else c)) acc =
      pySplitAux s acc := by
  induction s with
  | nil => intro acc; rfl
  | cons c s ih =>
    intro acc
    by_cases hc : isWS c = true
    · rw [List.map_cons, if_pos hc, pySplitAux_ws_cons SP _ acc isWS_SP,
        pySplitAux_ws_cons c s acc hc, ih []]
    · have hc' : isWS c = false := by simpa using hc
      rw [List.map_cons, if_neg (by simp [hc']), pySplitAux_nonws_cons c _ acc hc',
        pySplitAux_nonws_cons c s acc hc', ih (c :: acc)]

/-- The whitespace munging step of textwrap does not change str.split(). -/
theorem pySplit_mungeWhitespace (s : List Char) :
    pySplit (mungeWhitespace s) = pySplit s := by
  unfold pySplit mungeWhitespace expandTabs
  rw [pySplitAux_munge_map, pySplitAux_expandTabsAux]

/-! ### splitRuns: structure of the run list -/

theorem splitRunsAux_flatten (s : List Char) :
    ∀ acc, (splitRunsAux acc s).flatten = acc.reverse ++ s := by
  induction s with
  | nil =>
    intro acc
    by_cases h : acc = [] <;> simp [splitRunsAux, h]
  | cons c s ih =>
    intro acc
    match acc with
    | [] => simpa using ih [c]
    | a :: t =>
      by_cases h : isWS a = isWS c
      · rw [splitRunsAux, if_pos h]
        simpa using ih (c :: a :: t)
      · rw [splitRunsAux, if_neg h]
        simpa using ih [c]

theorem splitRuns_flatten (s : List Char) : (splitRuns s).flatten = s := by
  simpa using splitRunsAux_flatten s []

theorem splitRunsAux_alt (s : List Char) :
    ∀ (acc : List Char) (b : Bool), (∀ c ∈ acc, isWS c = b) →
      AltRuns (splitRunsAux acc s) ∧
      (acc ≠ [] → ∀ h ∈ (splitRunsAux acc s).head?, isWSChunk h = b) := by
  induction s with
  | nil =>
    intro acc b hb
    by_cases h : acc = []
    · simp [splitRunsAux, h, AltRuns]
    · refine ⟨⟨?_, ?_⟩, ?_⟩
      · intro ch hch
        rw [splitRunsAux, if_neg h] at hch
        rcases List.mem_singleton.mp hch with rfl
        refine ⟨by simpa using h, b, ?_⟩
        intro c hc
        exact hb c (List.mem_reverse.mp hc)
      · rw [splitRunsAux, if_neg h]
        exact List.chain'_singleton _
      · intro _ x hx
        rw [splitRunsAux, if_neg h] at hx
        simp only [List.head?_cons, Option.mem_def, Option.some.injEq] at hx
        subst hx
        exact isWSChunk_of_homog (by simpa using h)
          (fun c hc => hb c (List.mem_reverse.mp hc))
  | cons c s ih =>
    intro acc b hb
    match acc with
    | [] =>
      have h1 := ih [c] (isWS c) (by simp)
      refine ⟨h1.1, by simp⟩
    | a :: t =>
      by_cases h : isWS a = isWS c
      · have hba : isWS a = b := hb a (List.mem_cons_self a t)
        have hall : ∀ d ∈ c :: a :: t, isWS d = b := by
          intro d hd
          rcases List.mem_cons.mp hd with rfl | hd
          · rw [← h]; exact hba
          · exact hb d hd
        have h1 := ih (c :: a :: t) b hall
        rw [splitRunsAux, if_pos h]
        exact ⟨h1.1, fun _ => h1.2 (by simp)⟩
      · have h1 := ih [c] (isWS c) (by simp)
        have hacc : (a :: t) ≠ [] := by simp
        have hhomog : (a :: t).reverse ≠ [] ∧ ∃ b', ∀ d ∈ (a :: t).reverse, isWS d = b' := by
          refine ⟨by simp, b, ?_⟩
          intro d hd
          exact hb d (List.mem_reverse.mp hd)
        have hclass : isWSChunk (a :: t).reverse = b :=
          isWSChunk_of_homog (by simp) (fun d hd => hb d (List.mem_reverse.mp hd))
        rw [splitRunsAux, if_neg h]
        refine ⟨⟨?_, ?_⟩, ?_⟩
        · intro ch hch
          rcases List.mem_cons.mp hch with rfl | hch
          · exact hhomog
          · exact h1.1.1 ch hch
        · rw [List.chain'_cons']
          refine ⟨?_, h1.1.2⟩
          intro y hy
          have hyc : isWSChunk y = isWS c := h1.2 (by simp) y hy
          rw [hclass, hyc]
          have hba : isWS a = b := hb a (List.mem_cons_self a t)
          rw [← hba]
          exact h
        · intro _ x hx
          simp only [List.head?_cons, Option.mem_def, Option.some.injEq] at hx
          subst hx
          exact hclass

theorem splitRuns_alt (s : List Char) : AltRuns (splitRuns s) := by
  cases s with
  | nil => exact ⟨by simp [splitRuns, splitRunsAux], by simp [splitRuns, splitRunsAux]⟩
  | cons c s =>
    have h := splitRunsAux_alt (c :: s) [] true (by simp)
    exact h.1

/-- Core lemma: the words of a flattened alternating run list are exactly
its non-whitespace runs. -/
theorem pySplit_flatten_alt : ∀ cs : List (List Char), AltRuns cs →
    pySplit cs.flatten = wordRuns cs := by
  intro cs
  induction cs with
  | nil => intro _; rfl
  | cons ch rest ih =>
    intro halt
    have hch := halt.1 ch (List.mem_cons_self ch rest)
    obtain ⟨hne, b, hb⟩ := hch
    have hrest : AltRuns rest :=
      ⟨fun x hx => halt.1 x (List.mem_cons_of_mem ch hx), halt.2.tail⟩
    have hclass : isWSChunk ch = b := isWSChunk_of_homog hne hb
    cases b with
    | true =>
      rw [List.flatten_cons, pySplit_ws_append ch hb, ih hrest]
      simp [wordRuns, hclass]
    | false =>
      have hx : rest.flatten = [] ∨
          ∃ c x', rest.flatten = c :: x' ∧ isWS c = true := by
        cases rest with
        | nil => exact Or.inl rfl
        | cons ch2 rest2 =>
          have hch2 := hrest.1 ch2 (List.mem_cons_self ch2 rest2)
          obtain ⟨hne2, b2, hb2⟩ := hch2
          have hclass2 : isWSChunk ch2 = b2 := isWSChunk_of_homog hne2 hb2
          have hdiff : isWSChunk ch ≠ isWSChunk ch2 :=
            (List.chain'_cons'.mp halt.2).1 ch2 (by simp)
          have hb2true : b2 = true := by
            rw [hclass, hclass2] at hdiff
            cases b2 with
            | false => exact absurd rfl hdiff
            | true => rfl
          cases ch2 with
          | nil => exact absurd rfl hne2
          | cons c2 t2 =>
            refine Or.inr ⟨c2, t2 ++ rest2.flatten, by simp, ?_⟩
            rw [hb2 c2 (List.mem_cons_self c2 t2), hb2true]
      rw [List.flatten_cons, pySplit_word_append ch rest.flatten hb hne hx, ih hrest]
      simp [wordRuns, hclass]

/-- str.split() computes the non-whitespace runs. -/
theorem pySplit_eq_wordRuns (s : List Char) :
    pySplit s = wordRuns (splitRuns s) := by
  conv_lhs => rw [← splitRuns_flatten s]
  exact pySplit_flatten_alt (splitRuns s) (splitRuns_alt s)

/-! ### wordRuns / AltRuns preservation lemmas -/

theorem wordRuns_append (l r : List (List Char)) :
    wordRuns (l ++ r) = wordRuns l ++ wordRuns r := by
  simp [wordRuns, List.filter_append]

theorem wordRuns_ws_cons {ch : List Char} (h : isWSChunk ch = true)
    (r : List (List Char)) : wordRuns (ch :: r) = wordRuns r := by
  simp [wordRuns, h]

theorem AltRuns_append_left {l r : List (List Char)} (h : AltRuns (l ++ r)) :
    AltRuns l := by
  refine ⟨fun ch hch => h.1 ch (List.mem_append_left r hch), ?_⟩
  exact (List.chain'_append.mp h.2).1

theorem AltRuns_append_right {l r : List (List Char)} (h : AltRuns (l ++ r)) :
    AltRuns r := by
  refine ⟨fun ch hch => h.1 ch (List.mem_append_right l hch), ?_⟩
  exact (List.chain'_append.mp h.2).2.1

theorem AltRuns_tail {ch : List Char} {r : List (List Char)}
    (h : AltRuns (ch :: r)) : AltRuns r :=
  AltRuns_append_right (l := [ch]) h

theorem dropLeadingWS_wordRuns (b : Bool) (cs : List (List Char)) :
    wordRuns (dropLeadingWS b cs) = wordRuns cs := by
  match cs with
  | [] => rfl
  | ch :: rest =>
    by_cases h : b && isWSChunk ch
    · have hws : isWSChunk ch = true := (Bool.and_eq_true _ _).mp h |>.2
      rw [dropLeadingWS, if_pos h, wordRuns_ws_cons hws]
    · rw [dropLeadingWS, if_neg h]

theorem dropLeadingWS_alt {b : Bool} {cs : List (List Char)} (h : AltRuns cs) :
    AltRuns (dropLeadingWS b cs) := by
  match cs with
  | [] => exact h
  | ch :: rest =>
    by_cases hb : b && isWSChunk ch
    · rw [dropLeadingWS, if_pos hb]; exact AltRuns_tail h
    · rw [dropLeadingWS, if_neg hb]; exact h

theorem dropLeadingWS_length (b : Bool) (cs : List (List Char)) :
    (dropLeadingWS b cs).length ≤ cs.length := by
  match cs with
  | [] => exact Nat.le_refl _
  | ch :: rest =>
    by_cases hb : b && isWSChunk ch
    · rw [dropLeadingWS, if_pos hb]; simp
    · rw [dropLeadingWS, if_neg hb]

theorem takeFits_append (width : Nat) :
    ∀ (cs : List (List Char)) (n : Nat),
      (takeFits width n cs).1 ++ (takeFits width n cs).2 = cs := by
  intro cs
  induction cs with
  | nil => intro n; rfl
  | cons ch rest ih =>
    intro n
    by_cases h : n + ch.length ≤ width
    · simp only [takeFits, if_pos h]
      simpa using ih (n + ch.length)
    · simp [takeFits, if_neg h]

theorem takeFits_fst_nil {width n : Nat} {cs : List (List Char)}
    (h : (takeFits width n cs).1 = []) : (takeFits width n cs).2 = cs := by
  match cs with
  | [] => rfl
  | ch :: rest =>
    by_cases hfit : n + ch.length ≤ width
    · exfalso
      simp only [takeFits, if_pos hfit] at h
      exact List.cons_ne_nil _ _ h
    · simp [takeFits, if_neg hfit]

theorem takeFits_head_big {width n : Nat} {ch : List Char} {rest : List (List Char)}
    (h : (takeFits width n (ch :: rest)).1 = []) : ¬(n + ch.length ≤ width) := by
  intro hfit
  simp only [takeFits, if_pos hfit] at h
  exact List.cons_ne_nil _ _ h

theorem handleLong_append (p : List (List Char) × List (List Char)) :
    (handleLong p).1 ++ (handleLong p).2 = p.1 ++ p.2 := by
  match hp : p.2 with
  | [] => simp [handleLong, hp]
  | ch :: rrest =>
    by_cases hlen : 250 < ch.length
    · by_cases hnil : p.1 = []
      · simp [handleLong, hp, hlen, hnil]
      · simp [handleLong, hp, hlen, hnil]
    · simp [handleLong, hp, hlen]

theorem handleLong_snd_length (p : List (List Char) × List (List Char)) :
    (handleLong p).2.length ≤ p.2.length := by
  match hp : p.2 with
  | [] => simp [handleLong, hp]
  | ch :: rrest =>
    by_cases hlen : 250 < ch.length
    · by_cases hnil : p.1 = []
      · simp [handleLong, hp, hlen, hnil]
      · simp [handleLong, hp, hlen, hnil]
    · simp [handleLong, hp, hlen]

theorem dropTrailingWS_wordRuns (l : List (List Char)) :
    wordRuns (dropTrailingWS l) = wordRuns l := by
  induction l using List.reverseRecOn with
  | nil => rfl
  | append_singleton xs x _ =>
    by_cases hws : isWSChunk x = true
    · simp only [dropTrailingWS, List.getLast?_concat, hws, if_true,
        List.dropLast_concat, wordRuns_append]
      simp [wordRuns, hws]
    · simp only [dropTrailingWS, List.getLast?_concat, hws, if_false]
      simp

theorem dropTrailingWS_alt {l : List (List Char)} (h : AltRuns l) :
    AltRuns (dropTrailingWS l) := by
  induction l using List.reverseRecOn with
  | nil => exact h
  | append_singleton xs x _ =>
    by_cases hws : isWSChunk x = true
    · simp only [dropTrailingWS, List.getLast?_concat, hws, if_true,
        List.dropLast_concat]
      exact AltRuns_append_left h
    · simp only [dropTrailingWS, List.getLast?_concat, hws, if_false]
      exact h

theorem dropTrailingWS_nil_wordRuns {l : List (List Char)}
    (h : dropTrailingWS l = []) : wordRuns l = [] := by
  rw [← dropTrailingWS_wordRuns, h]
  rfl

theorem wrapStep_words (b : Bool) (chunks : List (List Char))
    (halt : AltRuns chunks) :
    lineWords (wrapStep b chunks).1 ++ wordRuns (wrapStep b chunks).2 =
      wordRuns chunks ∧ AltRuns (wrapStep b chunks).2 := by
  simp only [wrapStep]
  set cs1 := dropLeadingWS b chunks with hcs1
  set q := handleLong (takeFits 250 0 cs1) with hq
  have hsplit : q.1 ++ q.2 = cs1 := by
    rw [hq, handleLong_append, takeFits_append]
  have halt1 : AltRuns cs1 := dropLeadingWS_alt halt
  have haltq1 : AltRuns q.1 := AltRuns_append_left (hsplit ▸ halt1)
  have haltq2 : AltRuns q.2 := AltRuns_append_right (hsplit ▸ halt1)
  have hw1 : wordRuns cs1 = wordRuns chunks := dropLeadingWS_wordRuns b chunks
  have hwq : wordRuns q.1 ++ wordRuns q.2 = wordRuns chunks := by
    rw [← wordRuns_append, hsplit, hw1]
  set curLine := dropTrailingWS q.1 with hcl
  by_cases hnil : curLine = []
  · have hw0 : wordRuns q.1 = [] := dropTrailingWS_nil_wordRuns (hcl.symm.trans hnil)
    refine ⟨?_, haltq2⟩
    rw [if_pos hnil, ← hwq, hw0]
    simp [lineWords]
  · have haltcl : AltRuns curLine := dropTrailingWS_alt haltq1
    refine ⟨?_, haltq2⟩
    rw [if_neg hnil, ← hwq]
    simp only [lineWords]
    rw [pySplit_flatten_alt curLine haltcl, hcl, dropTrailingWS_wordRuns]

theorem wrapStep_length (b : Bool) (chunks : List (List Char))
    (h : chunks ≠ []) : (wrapStep b chunks).2.length < chunks.length := by
  match chunks, h with
  | ch :: rest, _ =>
    simp only [wrapStep]
    by_cases hb : b && isWSChunk ch
    · -- leading chunk dropped
      have hd : dropLeadingWS b (ch :: rest) = rest := by
        simp only [dropLeadingWS]; rw [if_pos hb]
      rw [hd]
      have hps := congrArg List.length (takeFits_append 250 rest 0)
      rw [List.length_append] at hps
      have hq2 := handleLong_snd_length (takeFits 250 0 rest)
      simp only [List.length_cons]
      omega
    · have hd : dropLeadingWS b (ch :: rest) = ch :: rest := by
        simp only [dropLeadingWS]; rw [if_neg hb]
      rw [hd]
      have hps := congrArg List.length (takeFits_append 250 (ch :: rest) 0)
      rw [List.length_append] at hps
      by_cases hp1 : (takeFits 250 0 (ch :: rest)).1 = []
      · -- nothing fit: the head chunk is longer than the width and
        -- handleLong pops it onto the empty line
        have hp2 : (takeFits 250 0 (ch :: rest)).2 = ch :: rest := takeFits_fst_nil hp1
        have hbig : 250 < ch.length := by
          have := takeFits_head_big hp1
          omega
        have hH : handleLong (takeFits 250 0 (ch :: rest)) = ([ch], rest) := by
          simp only [handleLong, hp2]
          rw [if_pos hbig, if_pos hp1]
        rw [hH]
        simp
      · -- at least one chunk was consumed by the line
        have hpos : 0 < (takeFits 250 0 (ch :: rest)).1.length :=
          List.length_pos.mpr hp1
        have hq2 := handleLong_snd_length (takeFits 250 0 (ch :: rest))
        simp only [List.length_cons] at hps ⊢
        omega

/-! ### The wrap loop and recombination preserve the word sequence -/

theorem wrapChunksAux_words :
    ∀ (fuel : Nat) (b : Bool) (cs : List (List Char)),
      cs.length ≤ fuel → AltRuns cs →
      ((wrapChunksAux fuel b cs).map pySplit).flatten = wordRuns cs := by
  intro fuel
  induction fuel with
  | zero =>
    intro b cs hlen _
    have : cs = [] := List.length_eq_zero.mp (Nat.le_zero.mp hlen)
    subst this
    rfl
  | succ fuel ih =>
    intro b cs hlen halt
    match cs with
    | [] => rfl
    | ch :: rest =>
      have hne : (ch :: rest) ≠ [] := by simp
      have hstep := wrapStep_words b (ch :: rest) halt
      have hlt := wrapStep_length b (ch :: rest) hne
      have hlen2 : (wrapStep b (ch :: rest)).2.length ≤ fuel := by
        have := hlen
        simp only [List.length_cons] at this
        omega
      match hws : wrapStep b (ch :: rest) with
      | (some l, rest2) =>
        rw [hws] at hstep hlen2
        simp only [wrapChunksAux, hws, List.map_cons, List.flatten_cons]
        rw [ih true rest2 hlen2 hstep.2]
        simpa [lineWords] using hstep.1
      | (none, rest2) =>
        rw [hws] at hstep hlen2
        simp only [wrapChunksAux, hws]
        rw [ih b rest2 hlen2 hstep.2]
        simpa [lineWords] using hstep.1

theorem pyWrap_words (text : List Char) :
    ((pyWrap text).map pySplit).flatten = pySplit text := by
  unfold pyWrap
  rw [wrapChunksAux_words ((splitRuns (mungeWhitespace text)).length + 1) false
    (splitRuns (mungeWhitespace text)) (Nat.le_succ _) (splitRuns_alt _),
    ← pySplit_eq_wordRuns, pySplit_mungeWhitespace]

/-! ### Recombination preserves the word sequence -/

theorem pySplit_snoc_SP (x : List Char) : pySplit (x ++ [SP]) = pySplit x :=
  pySplit_append_ws [SP] (by simp [isWS_SP]) x

theorem recombineAux_words :
    ∀ (lines : List (List Char)) (cur : List Char),
      (cur = [] ∨ ∃ c, cur = c ++ [SP]) →
      ((recombineAux lines cur).map pySplit).flatten =
        pySplit cur ++ (lines.map pySplit).flatten := by
  intro lines
  induction lines with
  | nil =>
    intro cur _
    by_cases h : pyStrip cur = []
    · have h0 : pySplit cur = [] := by rw [← pySplit_pyStrip, h]; rfl
      simp [recombineAux, h, h0]
    · simp [recombineAux, h, pySplit_pyStrip]
  | cons line rest ih =>
    intro cur hcur
    have hsplit : pySplit (cur ++ line ++ [SP]) = pySplit cur ++ pySplit line := by
      rcases hcur with rfl | ⟨c, rfl⟩
      · simp [pySplit_snoc_SP, pySplit_nil]
      · have h1 : (c ++ [SP]) ++ line = c ++ SP :: line := by simp
        rw [pySplit_snoc_SP, h1, pySplit_append_ws_cons SP isWS_SP c line,
          pySplit_snoc_SP]
    by_cases hfit : cur.length + line.length + 1 ≤ 500
    · simp only [recombineAux, if_pos hfit]
      rw [ih (cur ++ line ++ [SP]) (Or.inr ⟨cur ++ line, by simp⟩), hsplit]
      simp [List.append_assoc]
    · simp only [recombineAux, if_neg hfit]
      rw [List.map_append, List.flatten_append,
        ih (line ++ [SP]) (Or.inr ⟨line, rfl⟩), pySplit_snoc_SP]
      by_cases h : pyStrip cur = []
      · have h0 : pySplit cur = [] := by rw [← pySplit_pyStrip, h]; rfl
        simp [h, h0]
      · simp [h, pySplit_pyStrip, List.append_assoc]

theorem buildChunks_words (text : List Char) :
    ((buildChunks text).map pySplit).flatten = pySplit text := by
  unfold buildChunks
  rw [recombineAux_words (pyWrap text) [] (Or.inl rfl), pySplit_nil,
    List.nil_append, pyWrap_words]

theorem pySplit_joinSp : ∀ cs : List (List Char),
    pySplit (joinSp cs) = (cs.map pySplit).flatten := by
  intro cs
  induction cs with
  | nil => rfl
  | cons c rest ih =>
    cases rest with
    | nil => simp [joinSp]
    | cons c2 rest2 =>
      rw [joinSp, pySplit_append_ws_cons SP isWS_SP c (joinSp (c2 :: rest2)), ih]
      simp

/-- Shared helper: the chunking step of speak() preserves the token
sequence of the input, for every input text. -/
theorem chunksOf_tokens (text : List Char) :
    pySplit (joinSp (chunksOf text)) = pySplit text := by
  unfold chunksOf
  by_cases h : 500 < text.length
  · rw [if_pos h, pySplit_joinSp, buildChunks_words]
  · rw [if_neg h]
    simp [joinSp]

/-! ### Structure of the timing loop -/

theorem timingsList_eq_map_range (tpc : ℚ) :
    ∀ (ws : List (List Char)) (t : ℚ),
      timingsList ws tpc t = (List.range ws.length).map
        (fun i => t + ((ws.take i).map (fun w => (w.length : ℚ) * tpc + 1 / 20)).sum) := by
  intro ws
  induction ws with
  | nil => intro t; rfl
  | cons w ws ih =>
    intro t
    rw [timingsList, ih (t + (w.length : ℚ) * tpc + 1 / 20), List.length_cons,
      List.range_succ_eq_map, List.map_cons, List.map_map]
    congr 1
    · simp
    · apply List.map_congr_left
      intro i _
      simp [List.take_succ_cons, List.sum_cons]
      ring

theorem timingsEnd_eq_add_sum (tpc : ℚ) :
    ∀ (ws : List (List Char)) (t : ℚ),
      timingsEnd ws tpc t = t + (ws.map (fun w => (w.length : ℚ) * tpc + 1 / 20)).sum := by
  intro ws
  induction ws with
  | nil => intro t; simp [timingsEnd]
  | cons w ws ih =>
    intro t
    rw [timingsEnd, ih]
    simp [List.sum_cons]
    ring

theorem timingsList_length (tpc : ℚ) (ws : List (List Char)) (t : ℚ) :
    (timingsList ws tpc t).length = ws.length := by
  rw [timingsList_eq_map_range]
  simp

/-- Each emitted offset is at most the final value of current_time,
provided the per-character time is nonnegative. -/
theorem timingsList_le_end (tpc : ℚ) (htpc : 0 ≤ tpc) :
    ∀ (ws : List (List Char)) (t : ℚ), ∀ x ∈ timingsList ws tpc t,
      x ≤ timingsEnd ws tpc t := by
  have hmono : ∀ (ws : List (List Char)) (t : ℚ), t ≤ timingsEnd ws tpc t := by
    intro ws
    induction ws with
    | nil => intro t; exact le_refl t
    | cons w ws ih =>
      intro t
      have h0 : (0 : ℚ) ≤ (w.length : ℚ) * tpc := mul_nonneg (by positivity) htpc
      calc t ≤ t + (w.length : ℚ) * tpc + 1 / 20 := by linarith
        _ ≤ timingsEnd ws tpc (t + (w.length : ℚ) * tpc + 1 / 20) := ih _
        _ = timingsEnd (w :: ws) tpc t := rfl
  intro ws
  induction ws with
  | nil => intro t x hx; cases hx
  | cons w ws ih =>
    intro t x hx
    rcases List.mem_cons.mp hx with rfl | hx
    · exact hmono (w :: ws) x
    · exact ih _ x hx

theorem timingsList_chain (tpc : ℚ) (htpc : 0 ≤ tpc) :
    ∀ (ws : List (List Char)) (t : ℚ),
      (timingsList ws tpc t).Chain' (· ≤ ·) := by
  intro ws
  induction ws with
  | nil => intro t; exact List.chain'_nil
  | cons w ws ih =>
    intro t
    rw [timingsList, List.chain'_cons']
    refine ⟨?_, ih _⟩
    intro y hy
    match ws, hy with
    | w2 :: ws2, hy =>
      simp only [timingsList, List.head?_cons, Option.mem_def, Option.some.injEq] at hy
      subst hy
      have h0 : (0 : ℚ) ≤ (w.length : ℚ) * tpc := mul_nonneg (by positivity) htpc
      linarith

theorem timingsEnd_pos (tpc : ℚ) (htpc : 0 ≤ tpc) (w : List Char)
    (ws : List (List Char)) : 0 < timingsEnd (w :: ws) tpc 0 := by
  rw [timingsEnd_eq_add_sum, List.map_cons, List.sum_cons]
  have h1 : (0 : ℚ) < (w.length : ℚ) * tpc + 1 / 20 := by
    have h0 : (0 : ℚ) ≤ (w.length : ℚ) * tpc := mul_nonneg (by positivity) htpc
    linarith
  have h2 : (0 : ℚ) ≤ (ws.map (fun w => (w.length : ℚ) * tpc + 1 / 20)).sum := by
    apply List.sum_nonneg
    intro x hx
    rcases List.mem_map.mp hx with ⟨w2, _, rfl⟩
    have h0 : (0 : ℚ) ≤ (w2.length : ℚ) * tpc := mul_nonneg (by positivity) htpc
    linarith
  linarith

/-- The estimator computes exactly the amended cumulative-sum model:
rescale triggered by and scaled with the cumulative total after the last
word. -/
theorem estimate_eq_amended (text : List Char) (n : Nat) :
    estimate_word_timings text n = estimateAmendedC1 text n := by
  simp only [estimate_word_timings, estimateAmendedC1]
  by_cases h1 : pySplit text = []
  · rw [if_pos h1, if_pos h1]
  · rw [if_neg h1, if_neg h1]
    by_cases h2 : (List.map List.length (pySplit text)).sum = 0
    · rw [if_pos h2, if_pos h2]
    · rw [if_neg h2, if_neg h2]
      set words := pySplit text with hwords
      set dur : ℚ := (n : ℚ) / 22050 with hdur
      set tpc : ℚ := dur / ((List.map List.length words).sum : ℚ) with htpcdef
      have htpc : 0 ≤ tpc := by
        rw [htpcdef, hdur]
        positivity
      have hdur0 : 0 ≤ dur := by rw [hdur]; positivity
      have hraw : timingsList words tpc 0 = (List.range words.length).map
          (fun i => ((words.take i).map (fun w => (w.length : ℚ) * tpc + 1 / 20)).sum) := by
        rw [timingsList_eq_map_range]
        apply List.map_congr_left
        intro i _
        rw [zero_add]
      have hend : timingsEnd words tpc 0 =
          (words.map (fun w => (w.length : ℚ) * tpc + 1 / 20)).sum := by
        rw [timingsEnd_eq_add_sum, zero_add]
      have hne : timingsList words tpc 0 ≠ [] := by
        intro hnil
        apply h1
        have := timingsList_length tpc words 0
        rw [hnil] at this
        exact List.length_eq_zero.mp this.symm
      by_cases h3 : (words.map (fun w => (w.length : ℚ) * tpc + 1 / 20)).sum > dur
      · have hpos : timingsEnd words tpc 0 > 0 := by
          match words, h1 with
          | w :: ws, _ => exact timingsEnd_pos tpc htpc w ws
        rw [if_pos ⟨hne, by rw [hend]; exact h3⟩, if_pos hpos, if_pos h3, hraw, hend]
      · rw [if_neg (fun h => h3 (hend ▸ h.2)), if_neg h3, hraw]

/-- Claim C2: the offsets are non-decreasing and the last one is at most
the chunk audio duration audio_length_samples / 22050. -/
theorem claim_C2_monotone_bounded (text : List Char) (n : Nat) :
    (estimate_word_timings text n).Chain' (· ≤ ·) ∧
      ∀ x ∈ (estimate_word_timings text n).getLast?, x ≤ (n : ℚ) / 22050 := by
  simp only [estimate_word_timings]
  by_cases h1 : pySplit text = []
  · rw [if_pos h1]
    exact ⟨List.chain'_nil, by simp⟩
  · rw [if_neg h1]
    set words := pySplit text with hwords
    set dur : ℚ := (n : ℚ) / 22050 with hdur
    have hdur0 : 0 ≤ dur := by rw [hdur]; positivity
    by_cases h2 : (List.map List.length words).sum = 0
    · rw [if_pos h2]
      refine ⟨List.chain'_replicate_of_rel _ (le_refl 0), ?_⟩
      intro x hx
      obtain ⟨hne2, hxg⟩ := List.mem_getLast?_eq_getLast hx
      have hmem : x ∈ List.replicate words.length (0 : ℚ) := by
        rw [hxg]; exact List.getLast_mem hne2
      rw [List.eq_of_mem_replicate hmem]
      exact hdur0
    · rw [if_neg h2]
      set tpc : ℚ := dur / ((List.map List.length words).sum : ℚ) with htpcdef
      have htpc : 0 ≤ tpc := by
        rw [htpcdef, hdur]
        positivity
      have hne : timingsList words tpc 0 ≠ [] := by
        intro hnil
        apply h1
        have := timingsList_length tpc words 0
        rw [hnil] at this
        exact List.length_eq_zero.mp this.symm
      have hchain := timingsList_chain tpc htpc words 0
      have hle := timingsList_le_end tpc htpc words 0
      by_cases h3 : timingsEnd words tpc 0 > dur
      · have hpos : timingsEnd words tpc 0 > 0 := by
          match words, h1 with
          | w :: ws, _ => exact timingsEnd_pos tpc htpc w ws
        rw [if_pos ⟨hne, h3⟩, if_pos hpos]
        have hfac : 0 ≤ dur / timingsEnd words tpc 0 := div_nonneg hdur0 (le_of_lt hpos)
        constructor
        · rw [List.chain'_map]
          apply List.Chain'.imp ?_ hchain
          intro a b hab
          exact mul_le_mul_of_nonneg_right hab hfac
        · intro x hx
          obtain ⟨hne2, hxg⟩ := List.mem_getLast?_eq_getLast hx
          have hmem : x ∈ (timingsList words tpc 0).map
              (fun t => t * (dur / timingsEnd words tpc 0)) := by
            rw [hxg]; exact List.getLast_mem hne2
          rcases List.mem_map.mp hmem with ⟨y, hy, rfl⟩
          have h4 : y ≤ timingsEnd words tpc 0 := hle y hy
          have h5 : timingsEnd words tpc 0 * (dur / timingsEnd words tpc 0) = dur := by
            field_simp
          calc y * (dur / timingsEnd words tpc 0)
              ≤ timingsEnd words tpc 0 * (dur / timingsEnd words tpc 0) :=
                mul_le_mul_of_nonneg_right h4 hfac
            _ = dur := h5
      · rw [if_neg (fun h => h3 h.2)]
        refine ⟨hchain, ?_⟩
        intro x hx
        obtain ⟨hne2, hxg⟩ := List.mem_getLast?_eq_getLast hx
        have hmem : x ∈ timingsList words tpc 0 := by
          rw [hxg]; exact List.getLast_mem hne2
        calc x ≤ timingsEnd words tpc 0 := hle x hmem
          _ ≤ dur := not_lt.mp h3

/-! ## Claim theorems for the chunker and the estimator -/

theorem pySplit_hello : pySplit ['a', 'b', ' ', 'c', 'd'] = [['a', 'b'], ['c', 'd']] := by
  decide

/-- The source estimator on "ab cd" with one second of audio. -/
theorem estimate_hello_eval :
    estimate_word_timings ['a', 'b', ' ', 'c', 'd'] 22050 = [0, 1 / 2] := by
  simp only [estimate_word_timings, pySplit_hello]
  norm_num [timingsList, timingsEnd]
  simp

/-- The claim-C1 model on the same input: the last returned offset 11/20
does not exceed the duration, so no rescale happens. -/
theorem estimateClaimC1_hello_eval :
    estimateClaimC1 ['a', 'b', ' ', 'c', 'd'] 22050 = [0, 11 / 20] := by
  simp only [estimateClaimC1, pySplit_hello]
  norm_num [List.range_succ]
  simp

/-- Claim C1, as frozen, is falsified by the code at text "ab cd" with
22050 samples (duration 1 s): the last returned offset is 11/20 and does
not exceed the duration, so under the claim no rescale happens and the
offsets would be [0, 11/20]; the code rescales by duration /
current_time (current_time = 11/10, the cumulative total after the last
word) and returns [0, 1/2]. -/
theorem claim_C1_counterexample :
    estimate_word_timings ['a', 'b', ' ', 'c', 'd'] 22050 = [0, 1 / 2] ∧
    estimateClaimC1 ['a', 'b', ' ', 'c', 'd'] 22050 = [0, 11 / 20] ∧
    estimate_word_timings ['a', 'b', ' ', 'c', 'd'] 22050 ≠
      estimateClaimC1 ['a', 'b', ' ', 'c', 'd'] 22050 := by
  refine ⟨estimate_hello_eval, estimateClaimC1_hello_eval, ?_⟩
  rw [estimate_hello_eval, estimateClaimC1_hello_eval]
  intro h
  norm_num at h

/-- Witness for claim C2: on "ab cd" with one second of audio the
offsets are non-decreasing and the last one, 1/2 s, is within the
duration. -/
theorem claim_C2_monotone_bounded_witness :
    (estimate_word_timings ['a', 'b', ' ', 'c', 'd'] 22050).Chain' (· ≤ ·) ∧
    (1 / 2 : ℚ) ≤ ((22050 : Nat) : ℚ) / 22050 :=
  have h := claim_C2_monotone_bounded ['a', 'b', ' ', 'c', 'd'] 22050
  ⟨h.1, h.2 (1 / 2) (by rw [estimate_hello_eval]; rfl)⟩

/-- Claim C1 as amended: offsets are the cumulative sums of
(len(previous word) * time_per_char + 0.05), and whenever the cumulative
total after the last word (not the last returned offset) exceeds the
audio duration, every offset is uniformly rescaled by duration divided by
that cumulative total. -/
theorem claim_C1_timing_formula (text : List Char) (n : Nat) :
    estimate_word_timings text n = estimateAmendedC1 text n :=
  estimate_eq_amended text n

/-- Claim C3: concatenating the chunk texts produced by the chunking step
of speak(), in index order separated by single spaces, reproduces the
whitespace-normalized token sequence of the input: no token is dropped,
duplicated, split or reordered. -/
theorem claim_C3_chunk_concat (text : List Char) :
    pySplit (joinSp (chunksOf text)) = pySplit text :=
  chunksOf_tokens text

set_option maxRecDepth 100000 in
/-- Claim C4, as frozen, fails on the code: this 1200-character input
produces chunks of 495, 495 and 208 characters, not 500, 500 and 200
(a multi-line chunk can never reach 500 characters, because the greedy
test counts the trailing space that the final strip removes). -/
theorem claim_C4_counterexample :
    c4text.length = 1200 ∧
    (chunksOf c4text).map List.length ≠ [500, 500, 200] := by
  constructor
  · decide
  · decide

set_option maxRecDepth 100000 in
/-- Claim C4 as amended: a 1200-character input with max chunk size 500
produces 3 chunks, each of at most 500 characters (495, 495 and 208 for
the representative input), and every chunk boundary falls on a word
boundary (the token sequence is preserved). -/
theorem claim_C4_multichunk :
    (chunksOf c4text).length = 3 ∧
    (chunksOf c4text).map List.length = [495, 495, 208] ∧
    pySplit (joinSp (chunksOf c4text)) = pySplit c4text := by
  refine ⟨by decide, by decide, chunksOf_tokens c4text⟩

/-- The indices emitted by one pass are consecutive, starting at the
initial word index. -/
theorem syncLoop_emitted_range (timings : List ℚ) (dur : ℚ) :
    ∀ (obs : List Obs) (idx : Nat), ∃ m,
      (syncLoop timings dur idx obs).emitted =
        (List.range m).map (fun k => idx + k) := by
  intro obs
  induction obs with
  | nil =>
    intro idx
    refine ⟨0, ?_⟩
    by_cases h : timings.length ≤ idx <;> simp [syncLoop, h]
  | cons o rest ih =>
    intro idx
    by_cases h1 : timings.length ≤ idx
    · exact ⟨0, by simp [syncLoop, h1]⟩
    · by_cases h2 : (o.stopped || o.paused) = true
      · exact ⟨0, by simp [syncLoop, h1, h2]⟩
      · have h2' : (o.stopped || o.paused) = false := by simpa using h2
        by_cases hhit : timings[idx]?.getD 0 ≤ o.elapsed
        · by_cases htime : dur + 1 < o.elapsed
          · refine ⟨1, ?_⟩
            simp [syncLoop, h1, h2', hhit, htime, List.range_succ]
          · obtain ⟨m, he⟩ := ih (idx + 1)
            refine ⟨m + 1, ?_⟩
            simp only [syncLoop, if_neg h1, h2', Bool.false_eq_true, if_false,
              if_pos hhit, if_neg htime, he]
            rw [List.range_succ_eq_map]
            simp only [List.map_cons, List.map_map, List.singleton_append]
            refine congrArg (fun l => idx :: l) ?_
            apply List.map_congr_left
            intro k _
            simp only [Function.comp_apply]
            omega
        · by_cases htime : dur + 1 < o.elapsed
          · refine ⟨0, ?_⟩
            simp [syncLoop, h1, h2', hhit, htime]
          · obtain ⟨m, he⟩ := ih idx
            refine ⟨m, ?_⟩
            simp [syncLoop, h1, h2', hhit, htime, he]

/-- Claim C7: within one playback pass over a chunk the emitted word
indices are strictly increasing, no index is emitted more than once, and
the sequence is an initial segment of the naturals starting at 0. -/
theorem claim_C7_strict_events (timings : List ℚ) (dur : ℚ) (obs : List Obs) :
    (syncLoop timings dur 0 obs).emitted.Chain' (· < ·) ∧
    (syncLoop timings dur 0 obs).emitted.Nodup ∧
    ∃ m, (syncLoop timings dur 0 obs).emitted = List.range m := by
  obtain ⟨m, he⟩ := syncLoop_emitted_range timings dur obs 0
  have he0 : (syncLoop timings dur 0 obs).emitted = List.range m := by
    rw [he]
    apply List.map_congr_left ?_ |>.trans (List.map_id _)
    intro k _
    simp
  refine ⟨?_, ?_, m, he0⟩
  · rw [he0]
    exact (List.pairwise_lt_range m).chain'
  · rw [he0]
    exact List.nodup_range m

/-- Claim C9: once an iteration observes elapsed time beyond the audio
duration plus the 1-second grace period, the sync loop aborts for the
chunk: any further observations are never consumed (the result is the
same whatever follows), even though unfired timings remain. -/
theorem claim_C9_safety_abort (timings : List ℚ) (dur : ℚ) (idx : Nat) (o : Obs)
    (rest rest' : List Obs) (hidx : idx < timings.length)
    (hs : o.stopped = false) (hp : o.paused = false)
    (ht : dur + 1 < o.elapsed) :
    syncLoop timings dur idx (o :: rest) = syncLoop timings dur idx (o :: rest') ∧
    (syncLoop timings dur idx (o :: rest)).exit = SyncExit.timedOut := by
  have h1 : ¬ timings.length ≤ idx := by omega
  have h2 : (o.stopped || o.paused) = false := by simp [hs, hp]
  constructor
  · simp [syncLoop, h1, h2, ht]
  · by_cases hhit : timings.getD idx 0 ≤ o.elapsed <;>
      simp [syncLoop, h1, h2, ht, hhit]

/-- Witness for claim C9 at a concrete run: duration 1 s, three timings,
an observation at 3 s; the two continuations give identical results. -/
theorem claim_C9_safety_abort_witness :
    syncLoop [0, 1/2, 9/10] 1 0 (⟨3, false, false⟩ :: [⟨4, false, false⟩]) =
      syncLoop [0, 1/2, 9/10] 1 0 (⟨3, false, false⟩ :: []) ∧
    (syncLoop [0, 1/2, 9/10] 1 0 (⟨3, false, false⟩ :: [⟨4, false, false⟩])).exit =
      SyncExit.timedOut :=
  claim_C9_safety_abort [0, 1/2, 9/10] 1 0 ⟨3, false, false⟩ [⟨4, false, false⟩] []
    (by norm_num) rfl rfl (by norm_num)

theorem workerRunFrom_getElem :
    ∀ (jobs : List (ChunkJob × List Obs)) (i j : Nat),
      (workerRunFrom i jobs)[j]? =
        (jobs[j]?).map (fun jo => playOne (i + j) jo.1 jo.2) := by
  intro jobs
  induction jobs with
  | nil => intro i j; rfl
  | cons jo rest ih =>
    intro i j
    match j with
    | 0 => simp [workerRunFrom]
    | j + 1 =>
      simp only [workerRunFrom, List.getElem?_cons_succ, ih (i + 1) j]
      rw [show i + 1 + j = i + (j + 1) from by omega]

theorem playOne_acts (i : Nat) (job : ChunkJob) (obs : List Obs) :
    ∀ a ∈ (playOne i job obs).2,
      a = DevAct.play i ∨ a = DevAct.stopDev ∨ a = DevAct.waitDev := by
  intro a ha
  unfold playOne at ha
  by_cases h : job.samples = 0
  · rw [if_pos h] at ha
    simp at ha
  · rw [if_neg h] at ha
    simp only [List.mem_cons] at ha
    rcases ha with rfl | ha
    · exact Or.inl rfl
    · by_cases hf : (syncLoop job.timings job.dur 0 obs).exit = SyncExit.flagged
      · rw [if_pos hf] at ha
        rcases List.mem_singleton.mp ha with rfl
        exact Or.inr (Or.inl rfl)
      · rw [if_neg hf] at ha
        rcases List.mem_singleton.mp ha with rfl
        exact Or.inr (Or.inr rfl)

/-- Claim C6 as amended: a pause mid-chunk abandons the remainder of the
chunk.  The sync pass for the paused chunk ends flagged, its device
actions are exactly one full-buffer play followed by a device stop, and
the chunk is never played again by any other queue slot — on resume the
worker simply continues with the next queued chunk.  In particular the
unfired word events of the paused chunk are never emitted. -/
theorem claim_C6_pause_abandons (jobs : List (ChunkJob × List Obs)) (i : Nat)
    (job : ChunkJob) (obs : List Obs)
    (hj : jobs[i]? = some (job, obs))
    (hflag : (syncLoop job.timings job.dur 0 obs).exit = SyncExit.flagged)
    (hsamp : job.samples ≠ 0) :
    (workerRun jobs)[i]? = some (syncLoop job.timings job.dur 0 obs,
      [DevAct.play i, DevAct.stopDev]) ∧
    ∀ j r, (workerRun jobs)[j]? = some r → j ≠ i → DevAct.play i ∉ r.2 := by
  constructor
  · rw [workerRun, workerRunFrom_getElem jobs 0 i, hj]
    simp [playOne, hsamp, hflag]
  · intro j r hr hne hmem
    rw [workerRun, workerRunFrom_getElem jobs 0 j] at hr
    match hjr : jobs[j]? with
    | none =>
      rw [hjr] at hr
      simp [Option.map] at hr
    | some jo =>
      rw [hjr] at hr
      simp only [Option.map] at hr
      injection hr with h
      subst h
      rcases playOne_acts (0 + j) jo.1 jo.2 (DevAct.play i) hmem with h | h | h
      · injection h with h2
        exact hne (by omega)
      · exact DevAct.noConfusion h
      · exact DevAct.noConfusion h

/-- Claim C6, as frozen, is falsified: chunk 0 (two words, offsets 0 and
1/2 s) is paused after word 0 fires; playback then resumes and chunk 1
plays, but chunk 0's remaining word event (index 1) is never emitted and
no device action ever restarts chunk 0 — its only actions are the
initial full-buffer play and the stop on pause. -/
theorem c6_sync0_eval : syncLoop [0, 1/2] 1 0 c6obs0 = ⟨[0], SyncExit.flagged⟩ := by
  rw [c6obs0, syncLoop]
  norm_num
  rw [syncLoop]
  norm_num

theorem c6_sync1_eval : syncLoop [0] 1 0 c6obs1 = ⟨[0], SyncExit.exhausted⟩ := by
  rw [c6obs1, syncLoop]
  norm_num
  rw [syncLoop]
  norm_num

theorem claim_C6_counterexample :
    (workerRun c6jobs).map (fun r => r.1.emitted) = [[0], [0]] ∧
    (workerRun c6jobs).map (fun r => r.1.exit) =
      [SyncExit.flagged, SyncExit.exhausted] ∧
    (workerRun c6jobs).map Prod.snd =
      [[DevAct.play 0, DevAct.stopDev], [DevAct.play 1, DevAct.waitDev]] := by
  have h0 := c6_sync0_eval
  have h1 := c6_sync1_eval
  have hw : workerRun c6jobs =
      [(⟨[0], SyncExit.flagged⟩, [DevAct.play 0, DevAct.stopDev]),
       (⟨[0], SyncExit.exhausted⟩, [DevAct.play 1, DevAct.waitDev])] := by
    rw [workerRun, c6jobs, workerRunFrom, workerRunFrom, workerRunFrom]
    simp only [playOne, c6job0, c6job1, h0, h1]
    norm_num
    intro h
    exact absurd h (by decide)
  rw [hw]
  refine ⟨rfl, rfl, rfl⟩

/-- Witness for the amended claim C6 at the concrete two-chunk run. -/
theorem claim_C6_pause_abandons_witness :
    (workerRun c6jobs)[0]? = some (syncLoop c6job0.timings c6job0.dur 0 c6obs0,
      [DevAct.play 0, DevAct.stopDev]) ∧
    ∀ j r, (workerRun c6jobs)[j]? = some r → j ≠ 0 → DevAct.play 0 ∉ r.2 :=
  claim_C6_pause_abandons c6jobs 0 c6job0 c6obs0 (by simp [c6jobs])
    (by show (syncLoop [0, 1/2] 1 0 c6obs0).exit = SyncExit.flagged
        rw [c6_sync0_eval])
    (by decide)

/-- Claim C5, as frozen, is falsified: s5bad is reachable, yet stop()
called there takes the unguarded branch (neither playing nor paused) and
leaves the audio queue non-empty instead of clearing it. -/
theorem claim_C5_counterexample :
    Reach s5bad ∧ stop s5bad = s5bad ∧ s5bad.audio_queue ≠ [] := by
  refine ⟨?_, ?_, ?_⟩
  · have h1 : Reach s5a := Reach.ofSpeak (initState true) helloText none
      (Reach.ofInit true)
    have h2 : Reach { s5a with
        audio_queue := s5a.audio_queue ++ [(22050, ['h', 'i'])] } :=
      Reach.ofEnqueue s5a (22050, ['h', 'i']) h1 rfl
    exact Reach.ofWorkerExit _ h2 rfl
  · rfl
  · decide

/-- Claim C5 as amended: stop() always leaves is_playing and is_paused
false, a second stop() leaves the state identical to the first, and the
queue is cleared whenever the engine was playing or paused at the call
(or the queue was already empty); in the reachable corner state where
the playback worker exited while the producer had enqueued, the queue
survives stop(). -/
theorem claim_C5_stop_idempotent (s : EngineState) :
    (stop s).is_playing = false ∧ (stop s).is_paused = false ∧
    stop (stop s) = stop s ∧
    (s.is_playing = true ∨ s.is_paused = true ∨ s.audio_queue = [] →
      (stop s).audio_queue = []) := by
  by_cases h : s.is_playing ∨ s.is_paused
  · have h1 : stop s =
        { s with is_playing := false, is_paused := false, stopped := true,
                 audio_queue := [] } := by
      rw [stop, if_pos h]
    refine ⟨?_, ?_, ?_, ?_⟩
    · rw [h1]
    · rw [h1]
    · rw [h1, stop, if_neg (by simp)]
    · intro _
      rw [h1]
  · have hp : s.is_playing = false := by
      cases hh : s.is_playing
      · rfl
      · exact absurd (Or.inl hh) h
    have hq : s.is_paused = false := by
      cases hh : s.is_paused
      · rfl
      · exact absurd (Or.inr hh) h
    have h1 : stop s = s := by rw [stop, if_neg h]
    refine ⟨?_, ?_, ?_, ?_⟩
    · rw [h1]; exact hp
    · rw [h1]; exact hq
    · rw [h1]; exact h1
    · intro hor
      rw [h1]
      rcases hor with h2 | h2 | h2
      · rw [hp] at h2; cases h2
      · rw [hq] at h2; cases h2
      · exact h2

/-- Witness for the amended claim C5 on a fresh engine. -/
theorem claim_C5_stop_idempotent_witness :
    (stop (initState true)).is_playing = false ∧
    (stop (initState true)).is_paused = false ∧
    stop (stop (initState true)) = stop (initState true) ∧
    (stop (initState true)).audio_queue = [] :=
  have h := claim_C5_stop_idempotent (initState true)
  ⟨h.1, h.2.1, h.2.2.1, h.2.2.2 (Or.inr (Or.inr rfl))⟩

/-- Claim C8: speak() on empty or whitespace-only text is a no-op: the
state is unchanged and no thread is started (and hence no word event is
ever emitted for the call). -/
theorem claim_C8_empty_noop (s : EngineState) (text : List Char)
    (boxes : Option (List (ℚ × ℚ × ℚ × ℚ)))
    (h : ∀ c ∈ text, isWS c = true) :
    speak s text boxes = (s, []) := by
  have hd : List.dropWhile isWS text = [] :=
    List.dropWhile_eq_nil_iff.mpr (fun c hc => by simp [h c hc])
  have hstrip : pyStrip text = [] := by
    unfold pyStrip
    rw [hd]
    rfl
  rw [speak]
  by_cases h1 : s.tts = none
  · rw [if_pos h1]
  · rw [if_neg h1, if_pos (Or.inr hstrip)]

/-- Witness for claim C8: speak("   ") on a fresh engine. -/
theorem claim_C8_empty_noop_witness :
    speak (initState true) [SP, SP, SP] none = (initState true, []) :=
  claim_C8_empty_noop (initState true) [SP, SP, SP] none (by decide)

/-- Claim C10: when the TTS engine failed to initialize (tts is None),
speak() returns immediately: the previous session is not stopped, no
thread is started, and the state is untouched. -/
theorem claim_C10_no_tts (s : EngineState) (text : List Char)
    (boxes : Option (List (ℚ × ℚ × ℚ × ℚ))) (h : s.tts = none) :
    speak s text boxes = (s, []) := by
  rw [speak, if_pos h]

/-- Witness for claim C10: s10 keeps its playing state and queue
untouched by speak(). -/
theorem claim_C10_no_tts_witness :
    speak s10 ['h', 'e', 'y'] none = (s10, []) :=
  claim_C10_no_tts s10 ['h', 'e', 'y'] none rfl

end SpokenSense

